import Mathlib

/-! # Verification of the CD-lab grammar-analysis and predictive-parsing programs

Shallow embedding of the Python sources of this repository:

* namespace `E4` — `expt 4/main.py`: the iterative whole-grammar FIRST/FOLLOW
  fixed-point solver (`compute_first_sets`, `first_of_sequence`,
  `compute_follow_sets`, `is_nonterminal`);
* namespace `FF` — `expt 4/first_n_follow.py`: the recursive, visited-set
  guarded, memoized FIRST computation (`cal_first`) and the `main` loop that
  calls it with one shared memo;
* namespace `E6` — `expt 6/6a.py`: the recursive memoized FIRST computation
  (`compute_first`, `compute_first_of_sequence`), the iterative FOLLOW solver
  (`compute_all_follow_sets`), LL(1) table construction
  (`construct_parsing_table`) and the predictive-parser loop
  (`parse_input_string`), together with the symbol classification performed
  by `main` while loading the grammar;
* namespace `E5` — `expt 5/main.py`: immediate-left-recursion elimination
  (`eliminate_left_recursion`).

A grammar is an association list from a head nonterminal to its ordered
production list, mirroring the Python `dict` of lists (dictionary iteration
order = list order).  Python `set` objects are embedded as duplicate-free
lists in insertion order: `linsert` appends an element only when it is new,
so growth of the list is exactly growth of the set, and iterating the list
is one fixed, deterministic choice for Python's unspecified set-iteration
order.  A FIRST/FOLLOW state maps a nonterminal to a set of symbols and is
kept as a single set of pairs: `(A, x)` present means `x ∈ FIRST(A)`
(respectively `x ∈ FOLLOW(A)`).

Python's recursive FIRST computations (`E6.compute_first`, `FF.cal_first`)
can fail to terminate, so they are embedded with explicit fuel and return
`none` exactly when every fuel runs out, i.e. when the Python function
recurses forever.  Python stacks keep the top at the end of the list; the
embedding keeps the top at the head of the list.
-/

namespace CDLab

/-! ## List-based sets -/

/-- `set.add`: append an element when it is not yet present. -/
def linsert {α : Type} [DecidableEq α] (s : List α) (x : α) : List α :=
  if x ∈ s then s else s ++ [x]

/-- `set.update`: add every element of `t` in order. -/
def lunion {α : Type} [DecidableEq α] (s t : List α) : List α := t.foldl linsert s

/-- `s - {x}` on sets. -/
def lerase {α : Type} [DecidableEq α] (s : List α) (x : α) : List α :=
  s.filter (fun y => decide (y ≠ x))

/-- A grammar: ordered association list head ↦ ordered list of productions,
each production an ordered list of symbols. -/
abbrev Grammar := List (String × List (List String))

/-- A symbol set. -/
abbrev SSet := List String

/-- A FIRST/FOLLOW state as a set of `(nonterminal, symbol)` pairs. -/
abbrev PSet := List (String × String)

/-- All `(head, production)` entries of the grammar in iteration order
(`for A, ps in grammar.items(): for p in ps`). -/
def prodList (g : Grammar) : List (String × List String) :=
  g.flatMap fun e => e.2.map fun p => (e.1, p)

/-- The heads (dictionary keys) of the grammar, in order. -/
def keyList (g : Grammar) : List String := g.map (fun e => e.1)

/-- `symbol in grammar`. -/
def isKey (g : Grammar) (s : String) : Bool := decide (s ∈ keyList g)

/-- `grammar.get(symbol, [])`. -/
def prodsOf (g : Grammar) (s : String) : List (List String) :=
  match g.find? (fun e => e.1 == s) with
  | some e => e.2
  | none => []

/-- Every symbol occurring on the right-hand side of some production. -/
def rhsSymbols (g : Grammar) : List String := (prodList g).flatMap (fun e => e.2)

/-- The set of symbols a state assigns to `nt`. -/
def fsOf (s : PSet) (nt : String) : SSet :=
  (s.filter (fun p => p.1 == nt)).map (fun p => p.2)

/-! ## Generic facts about the list-based sets -/

theorem foldl_pres {α σ : Type} (P : σ → Prop) (f : σ → α → σ) :
    ∀ (l : List α), (∀ a ∈ l, ∀ s, P s → P (f s a)) → ∀ s, P s → P (l.foldl f s) := by
  intro l
  induction l with
  | nil => intro _ s h; exact h
  | cons a l ih =>
    intro hf s h
    exact ih (fun b hb t ht => hf b (List.mem_cons_of_mem a hb) t ht)
      (f s a) (hf a (List.mem_cons_self a l) s h)

theorem linsert_grows {α : Type} [DecidableEq α] (s : List α) (x : α) :
    s <+: linsert s x := by
  unfold linsert
  split
  · exact List.prefix_rfl
  · exact ⟨[x], rfl⟩

theorem lunion_grows {α : Type} [DecidableEq α] (s t : List α) : s <+: lunion s t := by
  unfold lunion
  exact foldl_pres (fun u => s <+: u) linsert t
    (fun a _ u hu => hu.trans (linsert_grows u a)) s List.prefix_rfl

theorem mem_of_mem_linsert {α : Type} [DecidableEq α] {s : List α} {x y : α}
    (h : y ∈ linsert s x) : y ∈ s ∨ y = x := by
  unfold linsert at h
  split at h
  · exact Or.inl h
  · rcases List.mem_append.mp h with h | h
    · exact Or.inl h
    · exact Or.inr (List.mem_singleton.mp h)

theorem mem_of_mem_lunion {α : Type} [DecidableEq α] {s t : List α} {y : α}
    (h : y ∈ lunion s t) : y ∈ s ∨ y ∈ t := by
  unfold lunion at h
  induction t generalizing s with
  | nil => exact Or.inl h
  | cons a t ih =>
    rcases ih (s := linsert s a) h with h' | h'
    · rcases mem_of_mem_linsert h' with h'' | h''
      · exact Or.inl h''
      · exact Or.inr (h'' ▸ List.mem_cons_self a t)
    · exact Or.inr (List.mem_cons_of_mem a h')

theorem mem_of_mem_lerase {α : Type} [DecidableEq α] {s : List α} {x y : α}
    (h : y ∈ lerase s x) : y ∈ s ∧ y ≠ x := by
  unfold lerase at h
  have := List.of_mem_filter h
  exact ⟨List.mem_of_mem_filter h, by simpa using this⟩

theorem linsert_nodup {α : Type} [DecidableEq α] {s : List α} (h : s.Nodup) (x : α) :
    (linsert s x).Nodup := by
  unfold linsert
  split
  · exact h
  · next hx => simpa [List.nodup_append] using ⟨h, hx⟩

theorem lunion_nodup {α : Type} [DecidableEq α] {s : List α} (h : s.Nodup) (t : List α) :
    (lunion s t).Nodup :=
  foldl_pres (fun v => v.Nodup) linsert t (fun a _ _ hv => linsert_nodup hv a) s h

theorem prefix_length_lt_of_ne {α : Type} {s t : List α} (h : s <+: t) (hne : s ≠ t) :
    s.length < t.length := by
  rcases h with ⟨r, rfl⟩
  cases r with
  | nil => simp at hne
  | cons a r => simp

theorem nodup_length_le {α : Type} [DecidableEq α] {s u : List α}
    (hd : s.Nodup) (hu : ∀ x ∈ s, x ∈ u) : s.length ≤ u.length := by
  have h1 : s.toFinset.card = s.length := List.toFinset_card_of_nodup hd
  have h2 : s.toFinset ⊆ u.toFinset := by
    intro x hx
    rw [List.mem_toFinset] at hx ⊢
    exact hu x hx
  calc s.length = s.toFinset.card := h1.symm
    _ ≤ u.toFinset.card := Finset.card_le_card h2
    _ ≤ u.length := List.toFinset_card_le u

theorem mem_prodList {g : Grammar} {e : String × List String} (h : e ∈ prodList g) :
    e.1 ∈ keyList g ∧ ∀ x ∈ e.2, x ∈ rhsSymbols g := by
  constructor
  · unfold prodList at h
    rcases List.mem_flatMap.mp h with ⟨a, ha, hmem⟩
    rcases List.mem_map.mp hmem with ⟨p, _, rfl⟩
    exact List.mem_map.mpr ⟨a, ha, rfl⟩
  · intro x hx
    unfold rhsSymbols
    exact List.mem_flatMap.mpr ⟨e, h, hx⟩

/-! ## `expt 4/main.py`: the iterative FIRST/FOLLOW fixed-point solver -/

namespace E4

/-- `EPSILON` of `expt 4/main.py`. -/
def EPSILON : String := "ε"

/-- `is_nonterminal` of `expt 4/main.py`: `symbol in grammar`. -/
def is_nonterminal (symbol : String) (grammar : Grammar) : Bool :=
  isKey grammar symbol

/-- The FIRST set of one symbol as read inside `compute_first_sets`:
`{EPSILON}` for the epsilon symbol, the current FIRST set for a nonterminal,
`{symbol}` for a terminal. -/
def symbolFirst (g : Grammar) (s : PSet) (sym : String) : SSet :=
  if sym = EPSILON then [EPSILON]
  else if is_nonterminal sym g then fsOf s sym
  else [sym]

/-- The symbol walk of `compute_first_sets` over one production of `A`:
add `FIRST(symbol) \ {ε}` to `FIRST(A)`; stop as soon as a symbol's FIRST
lacks ε (`derives_epsilon = False; break`); if the walk consumes the whole
production, add ε (`if derives_epsilon`). -/
def firstWalk (g : Grammar) (A : String) : PSet → List String → PSet
  | s, [] => linsert s (A, EPSILON)
  | s, sym :: rest =>
    let sf := symbolFirst g s sym
    let s' := lunion s ((lerase sf EPSILON).map fun x => (A, x))
    if EPSILON ∈ sf then firstWalk g A s' rest else s'

/-- One production of `compute_first_sets`: the `production == [EPSILON]`
short-circuit, else the symbol walk. -/
def firstProdStep (g : Grammar) (s : PSet) (e : String × List String) : PSet :=
  if e.2 = [EPSILON] then linsert s (e.1, EPSILON) else firstWalk g e.1 s e.2

/-- One full pass of the `while changed` loop of `compute_first_sets` over
every production of every nonterminal. -/
def firstPass (g : Grammar) (s : PSet) : PSet :=
  (prodList g).foldl (firstProdStep g) s

/-- Every pair the FIRST solver can ever record: a head paired with ε or
with a right-hand-side symbol. -/
def firstUnivList (g : Grammar) : PSet :=
  (keyList g).flatMap fun A => (EPSILON :: rhsSymbols g).map fun x => (A, x)

/-- The `while changed` loop with explicit pass fuel: stop as soon as a pass
changes nothing (the pass leaves the state exactly equal — passes only
append, so equality is exactly "no set grew", i.e. `changed == False`). -/
def firstIter (g : Grammar) : Nat → PSet → PSet
  | 0, s => s
  | n + 1, s =>
    let s' := firstPass g s
    if s' = s then s else firstIter g n s'

/-- `compute_first_sets` of `expt 4/main.py`: run passes from the empty
state; `(firstUnivList g).length + 1` passes always suffice to reach the
fixed point (proved below), so the fuel never cuts the loop short. -/
def compute_first_sets (g : Grammar) : PSet :=
  firstIter g ((firstUnivList g).length + 1) []

/-- The invariant carried through the FIRST passes: the state is a set
(duplicate-free) of pairs drawn from the finite universe. -/
def FirstInv (g : Grammar) (s : PSet) : Prop :=
  s.Nodup ∧ ∀ p ∈ s, p ∈ firstUnivList g

theorem mem_firstUnivList {g : Grammar} {p : String × String} :
    p ∈ firstUnivList g ↔ p.1 ∈ keyList g ∧ (p.2 = EPSILON ∨ p.2 ∈ rhsSymbols g) := by
  unfold firstUnivList
  constructor
  · intro h
    rcases List.mem_flatMap.mp h with ⟨A, hA, hmem⟩
    rcases List.mem_map.mp hmem with ⟨x, hx, rfl⟩
    exact ⟨hA, by simpa using hx⟩
  · rintro ⟨h1, h2⟩
    exact List.mem_flatMap.mpr ⟨p.1, h1, List.mem_map.mpr ⟨p.2, by simpa using h2, rfl⟩⟩

theorem symbolFirst_sub {g : Grammar} {s : PSet} {sym : String}
    (hs : FirstInv g s) (hsym : sym ∈ rhsSymbols g) :
    ∀ x ∈ symbolFirst g s sym, x = EPSILON ∨ x ∈ rhsSymbols g := by
  intro x hx
  unfold symbolFirst at hx
  split at hx
  · exact Or.inl (List.mem_singleton.mp hx)
  · split at hx
    · unfold fsOf at hx
      rcases List.mem_map.mp hx with ⟨q, hq, rfl⟩
      exact (mem_firstUnivList.mp (hs.2 q (List.mem_of_mem_filter hq))).2
    · exact Or.inr ((List.mem_singleton.mp hx) ▸ hsym)

theorem firstWalk_grows (g : Grammar) (A : String) :
    ∀ (l : List String) (s : PSet), s <+: firstWalk g A s l := by
  intro l
  induction l with
  | nil => intro s; exact linsert_grows s (A, EPSILON)
  | cons sym rest ih =>
    intro s
    show s <+: (let sf := symbolFirst g s sym
      let s' := lunion s ((lerase sf EPSILON).map fun x => (A, x))
      if EPSILON ∈ sf then firstWalk g A s' rest else s')
    simp only
    split
    · exact (lunion_grows s _).trans (ih _)
    · exact lunion_grows s _

theorem firstWalk_inv {g : Grammar} {A : String} (hA : A ∈ keyList g) :
    ∀ (l : List String), (∀ x ∈ l, x ∈ rhsSymbols g) →
      ∀ (s : PSet), FirstInv g s → FirstInv g (firstWalk g A s l) := by
  intro l
  induction l with
  | nil =>
    intro _ s hs
    refine ⟨linsert_nodup hs.1 _, fun p hp => ?_⟩
    rcases mem_of_mem_linsert hp with h | rfl
    · exact hs.2 p h
    · exact mem_firstUnivList.mpr ⟨hA, Or.inl rfl⟩
  | cons sym rest ih =>
    intro hl s hs
    have hsym : sym ∈ rhsSymbols g := hl sym (List.mem_cons_self _ _)
    have hrest : ∀ x ∈ rest, x ∈ rhsSymbols g :=
      fun x hx => hl x (List.mem_cons_of_mem _ hx)
    have hs' : FirstInv g
        (lunion s ((lerase (symbolFirst g s sym) EPSILON).map fun x => (A, x))) := by
      refine ⟨lunion_nodup hs.1 _, fun p hp => ?_⟩
      rcases mem_of_mem_lunion hp with h | h
      · exact hs.2 p h
      · rcases List.mem_map.mp h with ⟨x, hx, rfl⟩
        rcases mem_of_mem_lerase hx with ⟨hx1, _⟩
        exact mem_firstUnivList.mpr ⟨hA, symbolFirst_sub hs hsym x hx1⟩
    show FirstInv g (let sf := symbolFirst g s sym
      let s' := lunion s ((lerase sf EPSILON).map fun x => (A, x))
      if EPSILON ∈ sf then firstWalk g A s' rest else s')
    simp only
    split
    · exact ih hrest _ hs'
    · exact hs'

theorem firstPass_grows (g : Grammar) (s : PSet) : s <+: firstPass g s := by
  unfold firstPass
  refine foldl_pres (fun u => s <+: u) (firstProdStep g) _ (fun e _ u hu => ?_) s
    List.prefix_rfl
  refine hu.trans ?_
  unfold firstProdStep
  split
  · exact linsert_grows u _
  · exact firstWalk_grows g e.1 e.2 u

theorem firstPass_inv {g : Grammar} {s : PSet} (hs : FirstInv g s) :
    FirstInv g (firstPass g s) := by
  unfold firstPass
  refine foldl_pres (FirstInv g) (firstProdStep g) _ (fun e he u hu => ?_) s hs
  have hmem := mem_prodList he
  unfold firstProdStep
  split
  · refine ⟨linsert_nodup hu.1 _, fun p hp => ?_⟩
    rcases mem_of_mem_linsert hp with h | rfl
    · exact hu.2 p h
    · exact mem_firstUnivList.mpr ⟨hmem.1, Or.inl rfl⟩
  · exact firstWalk_inv hmem.1 e.2 hmem.2 u hu

theorem firstIter_fix (g : Grammar) :
    ∀ (n : Nat) (s : PSet), FirstInv g s →
      (firstUnivList g).length + 1 ≤ n + s.length →
      firstPass g (firstIter g n s) = firstIter g n s := by
  intro n
  induction n with
  | zero =>
    intro s hs hb
    have := nodup_length_le hs.1 hs.2
    omega
  | succ n ih =>
    intro s hs hb
    by_cases h : firstPass g s = s
    · simp [firstIter, h]
    · have hpre : s <+: firstPass g s := firstPass_grows g s
      have hlt : s.length < (firstPass g s).length :=
        prefix_length_lt_of_ne hpre (fun heq => h heq.symm)
      simp only [firstIter, h, if_neg, if_false]
      exact ih (firstPass g s) (firstPass_inv hs) (by omega)

/-- The `while changed` loop of `compute_first_sets` reaches its exit
condition within the allotted passes: the returned state is a genuine fixed
point of a full pass. -/
theorem compute_first_sets_fixed (g : Grammar) :
    firstPass g (compute_first_sets g) = compute_first_sets g := by
  unfold compute_first_sets
  exact firstIter_fix g _ [] ⟨List.nodup_nil, by simp⟩ (by omega)

/-- The end-of-input marker `"$"` as written in `compute_follow_sets`. -/
def ENDM : String := "$"

/-- The accumulator walk of `first_of_sequence`: an epsilon symbol adds ε and
continues; otherwise add `FIRST(symbol) \ {ε}` and stop unless ε ∈ FIRST(symbol);
completing the walk (`for … else`) adds ε. -/
def seqWalk (g : Grammar) (fs : PSet) : SSet → List String → SSet
  | result, [] => linsert result EPSILON
  | result, sym :: rest =>
    if sym = EPSILON then seqWalk g fs (linsert result EPSILON) rest
    else
      let sf := if is_nonterminal sym g then fsOf fs sym else [sym]
      let result' := lunion result (lerase sf EPSILON)
      if EPSILON ∈ sf then seqWalk g fs result' rest else result'

/-- `first_of_sequence` of `expt 4/main.py`, reading the finished FIRST sets. -/
def first_of_sequence (g : Grammar) (fs : PSet) (seq : List String) : SSet :=
  if seq = [] then [EPSILON] else seqWalk g fs [] seq

/-- Values `first_of_sequence` can produce: ε, a right-hand-side symbol, or a
symbol recorded in the given FIRST sets. -/
def SeqVal (g : Grammar) (fs : PSet) (x : String) : Prop :=
  x = EPSILON ∨ x ∈ rhsSymbols g ∨ x ∈ fs.map (fun p => p.2)

theorem seqWalk_sub {g : Grammar} {fs : PSet} :
    ∀ (l : List String), (∀ y ∈ l, y ∈ rhsSymbols g) →
      ∀ (result : SSet), (∀ x ∈ result, SeqVal g fs x) →
      ∀ x ∈ seqWalk g fs result l, SeqVal g fs x := by
  intro l
  induction l with
  | nil =>
    intro _ result hres x hx
    rcases mem_of_mem_linsert hx with h | rfl
    · exact hres x h
    · exact Or.inl rfl
  | cons sym rest ih =>
    intro hl result hres x hx
    have hrest : ∀ y ∈ rest, y ∈ rhsSymbols g :=
      fun y hy => hl y (List.mem_cons_of_mem _ hy)
    by_cases hsym : sym = EPSILON
    · rw [seqWalk, if_pos hsym] at hx
      refine ih hrest _ (fun z hz => ?_) x hx
      rcases mem_of_mem_linsert hz with h | rfl
      · exact hres z h
      · exact Or.inl rfl
    · rw [seqWalk, if_neg hsym] at hx
      simp only at hx
      by_cases hnt : is_nonterminal sym g = true
      · rw [if_pos hnt] at hx
        have hres' : ∀ z ∈ lunion result (lerase (fsOf fs sym) EPSILON), SeqVal g fs z := by
          intro z hz
          rcases mem_of_mem_lunion hz with h | h
          · exact hres z h
          · rcases mem_of_mem_lerase h with ⟨h1, _⟩
            unfold fsOf at h1
            rcases List.mem_map.mp h1 with ⟨q, hq, rfl⟩
            exact Or.inr (Or.inr (List.mem_map.mpr ⟨q, List.mem_of_mem_filter hq, rfl⟩))
        split at hx
        · exact ih hrest _ hres' x hx
        · exact hres' x hx
      · rw [if_neg hnt] at hx
        have hres' : ∀ z ∈ lunion result (lerase [sym] EPSILON), SeqVal g fs z := by
          intro z hz
          rcases mem_of_mem_lunion hz with h | h
          · exact hres z h
          · rcases mem_of_mem_lerase h with ⟨h1, _⟩
            exact Or.inr (Or.inl ((List.mem_singleton.mp h1) ▸
              hl sym (List.mem_cons_self _ _)))
        split at hx
        · exact ih hrest _ hres' x hx
        · exact hres' x hx

theorem first_of_sequence_sub {g : Grammar} {fs : PSet} {l : List String}
    (hl : ∀ y ∈ l, y ∈ rhsSymbols g) :
    ∀ x ∈ first_of_sequence g fs l, SeqVal g fs x := by
  unfold first_of_sequence
  split
  · intro x hx
    exact Or.inl (List.mem_singleton.mp hx)
  · exact seqWalk_sub l hl [] (by simp)

/-- The `FOLLOW(symbol).update(lookahead_first - {EPSILON})` step of
`compute_follow_sets`. -/
def followAdd (g : Grammar) (fs : PSet) (sym : String) (rest : List String)
    (t : PSet) : PSet :=
  lunion t ((lerase (first_of_sequence g fs rest) EPSILON).map fun x => (sym, x))

/-- One `enumerate(production)` position of `compute_follow_sets`: skip
terminals; otherwise add `FIRST(remainder) \ {ε}` to `FOLLOW(symbol)`, and
when the remainder is empty or can vanish, also add the current
`FOLLOW(head)`. -/
def followStep (g : Grammar) (fs : PSet) (head : String) (t : PSet) (sym : String)
    (rest : List String) : PSet :=
  if is_nonterminal sym g then
    if rest = [] ∨ EPSILON ∈ first_of_sequence g fs rest then
      lunion (followAdd g fs sym rest t)
        ((fsOf (followAdd g fs sym rest t) head).map fun x => (sym, x))
    else followAdd g fs sym rest t
  else t

/-- The occurrence walk of `compute_follow_sets` over one production of
`head`: apply `followStep` at every position with its remaining suffix. -/
def followProdWalk (g : Grammar) (fs : PSet) (head : String) : PSet → List String → PSet
  | t, [] => t
  | t, sym :: rest => followProdWalk g fs head (followStep g fs head t sym rest) rest

/-- One full pass of the `while changed` loop of `compute_follow_sets`. -/
def followPass (g : Grammar) (fs : PSet) (t : PSet) : PSet :=
  (prodList g).foldl (fun u e => followProdWalk g fs e.1 u e.2) t

/-- Every pair the FOLLOW solver can ever record. -/
def followUnivList (g : Grammar) (fs : PSet) (start : String) : PSet :=
  (start :: keyList g).flatMap fun A =>
    (ENDM :: EPSILON :: (rhsSymbols g ++ fs.map (fun p => p.2))).map fun x => (A, x)

/-- The `while changed` loop of `compute_follow_sets` with explicit pass fuel. -/
def followIter (g : Grammar) (fs : PSet) : Nat → PSet → PSet
  | 0, t => t
  | n + 1, t =>
    let t' := followPass g fs t
    if t' = t then t else followIter g fs n t'

/-- `compute_follow_sets` of `expt 4/main.py`: seed `FOLLOW(start) = {"$"}`
and iterate passes to the fixed point; the fuel always suffices (proved
below). -/
def compute_follow_sets (g : Grammar) (fs : PSet) (start : String) : PSet :=
  followIter g fs ((followUnivList g fs start).length + 1) [(start, ENDM)]

def FollowInv (g : Grammar) (fs : PSet) (start : String) (t : PSet) : Prop :=
  t.Nodup ∧ ∀ p ∈ t, p ∈ followUnivList g fs start

theorem mem_followUnivList {g : Grammar} {fs : PSet} {start : String}
    {p : String × String} :
    p ∈ followUnivList g fs start ↔
      (p.1 = start ∨ p.1 ∈ keyList g) ∧
        (p.2 = ENDM ∨ p.2 = EPSILON ∨ p.2 ∈ rhsSymbols g ∨ p.2 ∈ fs.map (fun q => q.2)) := by
  unfold followUnivList
  constructor
  · intro h
    rcases List.mem_flatMap.mp h with ⟨A, hA, hmem⟩
    rcases List.mem_map.mp hmem with ⟨x, hx, rfl⟩
    refine ⟨by simpa using hA, ?_⟩
    simpa using hx
  · rintro ⟨h1, h2⟩
    refine List.mem_flatMap.mpr ⟨p.1, by simpa using h1, List.mem_map.mpr ⟨p.2, ?_, rfl⟩⟩
    simpa using h2

theorem followStep_grows (g : Grammar) (fs : PSet) (head : String) (t : PSet)
    (sym : String) (rest : List String) : t <+: followStep g fs head t sym rest := by
  unfold followStep
  split
  · split
    · exact ((lunion_grows t _).trans (lunion_grows _ _))
    · exact lunion_grows t _
  · exact List.prefix_rfl

theorem followStep_inv {g : Grammar} {fs : PSet} {start head : String} {t : PSet}
    {sym : String} {rest : List String}
    (hrest : ∀ y ∈ rest, y ∈ rhsSymbols g)
    (ht : FollowInv g fs start t) :
    FollowInv g fs start (followStep g fs head t sym rest) := by
  unfold followStep
  split
  · next hnt =>
    have hsymk : sym ∈ keyList g := by
      unfold is_nonterminal isKey at hnt
      simpa using hnt
    have h1 : FollowInv g fs start (followAdd g fs sym rest t) := by
      refine ⟨lunion_nodup ht.1 _, fun p hp => ?_⟩
      rcases mem_of_mem_lunion hp with h | h
      · exact ht.2 p h
      · rcases List.mem_map.mp h with ⟨x, hx, rfl⟩
        rcases mem_of_mem_lerase hx with ⟨hx1, _⟩
        rcases first_of_sequence_sub hrest x hx1 with h | h | h
        · exact mem_followUnivList.mpr ⟨Or.inr hsymk, Or.inr (Or.inl h)⟩
        · exact mem_followUnivList.mpr ⟨Or.inr hsymk, Or.inr (Or.inr (Or.inl h))⟩
        · exact mem_followUnivList.mpr ⟨Or.inr hsymk, Or.inr (Or.inr (Or.inr h))⟩
    split
    · refine ⟨lunion_nodup h1.1 _, fun p hp => ?_⟩
      rcases mem_of_mem_lunion hp with h | h
      · exact h1.2 p h
      · rcases List.mem_map.mp h with ⟨x, hx, rfl⟩
        unfold fsOf at hx
        rcases List.mem_map.mp hx with ⟨q, hq, rfl⟩
        have := (mem_followUnivList.mp (h1.2 q (List.mem_of_mem_filter hq))).2
        exact mem_followUnivList.mpr ⟨Or.inr hsymk, this⟩
    · exact h1
  · exact ht

theorem followProdWalk_grows (g : Grammar) (fs : PSet) (head : String) :
    ∀ (l : List String) (t : PSet), t <+: followProdWalk g fs head t l := by
  intro l
  induction l with
  | nil => intro t; exact List.prefix_rfl
  | cons sym rest ih =>
    intro t
    exact (followStep_grows g fs head t sym rest).trans (ih _)

theorem followProdWalk_inv {g : Grammar} {fs : PSet} {start head : String} :
    ∀ (l : List String), (∀ y ∈ l, y ∈ rhsSymbols g) →
      ∀ (t : PSet), FollowInv g fs start t →
        FollowInv g fs start (followProdWalk g fs head t l) := by
  intro l
  induction l with
  | nil => intro _ t ht; exact ht
  | cons sym rest ih =>
    intro hl t ht
    have hrest : ∀ y ∈ rest, y ∈ rhsSymbols g :=
      fun y hy => hl y (List.mem_cons_of_mem _ hy)
    exact ih hrest _ (followStep_inv hrest ht)

theorem followPass_grows (g : Grammar) (fs : PSet) (t : PSet) : t <+: followPass g fs t := by
  unfold followPass
  exact foldl_pres (fun u => t <+: u) _ _
    (fun e _ u hu => hu.trans (followProdWalk_grows g fs e.1 e.2 u)) t List.prefix_rfl

theorem followPass_inv {g : Grammar} {fs : PSet} {start : String} {t : PSet}
    (ht : FollowInv g fs start t) : FollowInv g fs start (followPass g fs t) := by
  unfold followPass
  refine foldl_pres (FollowInv g fs start) _ _ (fun e he u hu => ?_) t ht
  have hmem := mem_prodList he
  exact followProdWalk_inv e.2 hmem.2 u hu

theorem followIter_fix (g : Grammar) (fs : PSet) (start : String) :
    ∀ (n : Nat) (t : PSet), FollowInv g fs start t →
      (followUnivList g fs start).length + 1 ≤ n + t.length →
      followPass g fs (followIter g fs n t) = followIter g fs n t := by
  intro n
  induction n with
  | zero =>
    intro t ht hb
    have := nodup_length_le ht.1 ht.2
    omega
  | succ n ih =>
    intro t ht hb
    by_cases h : followPass g fs t = t
    · simp [followIter, h]
    · have hpre : t <+: followPass g fs t := followPass_grows g fs t
      have hlt : t.length < (followPass g fs t).length :=
        prefix_length_lt_of_ne hpre (fun heq => h heq.symm)
      simp only [followIter, h, if_neg, if_false]
      exact ih (followPass g fs t) (followPass_inv ht) (by omega)

/-- The FOLLOW loop also converges within its allotted passes. -/
theorem compute_follow_sets_fixed (g : Grammar) (fs : PSet) (start : String) :
    followPass g fs (compute_follow_sets g fs start) = compute_follow_sets g fs start := by
  unfold compute_follow_sets
  refine followIter_fix g fs start _ _ ⟨by simp, fun p hp => ?_⟩ (by omega)
  rcases List.mem_singleton.mp hp with rfl
  exact mem_followUnivList.mpr ⟨Or.inl rfl, Or.inl rfl⟩

theorem followIter_seed_mem {g : Grammar} {fs : PSet} {p : String × String} :
    ∀ (n : Nat) (t : PSet), p ∈ t → p ∈ followIter g fs n t := by
  intro n
  induction n with
  | zero => intro t ht; exact ht
  | succ n ih =>
    intro t ht
    by_cases h : followPass g fs t = t
    · simpa [followIter, h] using ht
    · simp only [followIter, h, if_neg, if_false]
      exact ih _ ((followPass_grows g fs t).subset ht)

end E4

/-! ## Shared memo dictionaries for the recursive FIRST computations -/

/-- A memo dict symbol ↦ FIRST set (`first_sets` in `6a.py`, `memo` in
`first_n_follow.py`); newest entry first, lookup by key. -/
abbrev Memo := List (String × SSet)

def memoLookup (m : Memo) (s : String) : Option SSet :=
  (m.find? (fun e => e.1 == s)).map (fun e => e.2)

def memoInsert (m : Memo) (s : String) (f : SSet) : Memo := (s, f) :: m

/-! ## `expt 4/first_n_follow.py`: recursive visited-set-guarded FIRST -/

namespace FF

def EPSILON : String := "ε"

/-- `EPSILON_ALIASES` of `first_n_follow.py`. -/
def EPSILON_ALIASES : List String := ["ε", "#", "epsilon", "EPSILON", "lambda", "Λ", "eps"]

/-- `normalize_symbol` of `first_n_follow.py`. -/
def normalize_symbol (token : String) : String :=
  let t := token.trim
  if t = "" then "" else if t ∈ EPSILON_ALIASES then EPSILON else t

/-- The inner symbol loop of `cal_first` over one production, given the
recursive call `rec` (which threads the memo): an epsilon symbol is skipped;
a nonterminal (grammar key) contributes its FIRST minus ε and stops the walk
unless that FIRST holds ε; a terminal contributes itself and stops the walk.
The boolean result is `all_can_be_epsilon`. -/
def ffWalk (keys : List String) (rec : Memo → String → Option (SSet × Memo)) :
    Memo → List String → Option (SSet × Bool × Memo)
  | memo, [] => some ([], true, memo)
  | memo, sym :: rest =>
    if sym = EPSILON then ffWalk keys rec memo rest
    else if sym ∈ keys then
      (rec memo sym).bind fun p =>
        if EPSILON ∈ p.1 then
          (ffWalk keys rec p.2 rest).map fun q =>
            (lunion (lerase p.1 EPSILON) q.1, q.2.1, q.2.2)
        else some (lerase p.1 EPSILON, false, p.2)
    else some ([sym], false, memo)

/-- The production loop of `cal_first`: an empty production adds ε; otherwise
run the symbol walk, merge its contribution, and when `all_can_be_epsilon`
is still set add ε. -/
def ffProds (keys : List String) (rec : Memo → String → Option (SSet × Memo)) :
    Memo → SSet → List (List String) → Option (SSet × Memo)
  | memo, acc, [] => some (acc, memo)
  | memo, acc, p :: ps =>
    if p = [] then ffProds keys rec memo (linsert acc EPSILON) ps
    else (ffWalk keys rec memo p).bind fun q =>
      ffProds keys rec q.2.2
        (if q.2.1 then linsert (lunion acc q.1) EPSILON else lunion acc q.1) ps

/-- `cal_first` of `first_n_follow.py`, with explicit fuel for the unbounded
Python recursion (`none` = the call would recurse past any depth).  The memo
dict and the visiting set are threaded explicitly; a call removes its own
symbol from `visiting` before returning, so a recursive call simply receives
`visiting ∪ {s}`.  A memo hit returns at once; a non-key returns its
normalized self; a symbol already being visited returns the empty set
without memoizing it. -/
def cal_first (productions : Grammar) : Nat → Memo → List String → String →
    Option (SSet × Memo)
  | 0, _, _, _ => none
  | fuel + 1, memo, visiting, s =>
    match memoLookup memo s with
    | some f => some (f, memo)
    | none =>
      if isKey productions s = false then some ([normalize_symbol s], memo)
      else if s ∈ visiting then some ([], memo)
      else
        (ffProds (keyList productions)
            (fun m sym => cal_first productions fuel m (linsert visiting s) sym)
            memo [] (prodsOf productions s)).map
          fun q => (q.1, memoInsert q.2 s q.1)

/-- The `for s in productions: first[s] = cal_first(s, productions, first_memo)`
loop of `main` in `first_n_follow.py`: one shared memo across all calls, a
fresh visiting set per call; collects the per-symbol results. -/
def calFirstAllGo (productions : Grammar) (fuel : Nat) :
    List String → Memo → Option (List (String × SSet) × Memo)
  | [], memo => some ([], memo)
  | s :: rest, memo =>
    (cal_first productions fuel memo [] s).bind fun p =>
      (calFirstAllGo productions fuel rest p.2).map fun q => ((s, p.1) :: q.1, q.2)

/-- The FIRST sets `main` of `first_n_follow.py` reports. -/
def cal_first_all (productions : Grammar) (fuel : Nat) :
    Option (List (String × SSet)) :=
  (calFirstAllGo productions fuel (keyList productions) []).map (fun q => q.1)

end FF

/-! ## `expt 6/6a.py`: recursive FIRST, iterative FOLLOW, LL(1) table,
predictive parser -/

namespace E6

/-- `EPSILON = '#'` of `6a.py`. -/
def EPSILON : String := "#"

/-- `END_MARKER = '$'` of `6a.py`. -/
def END_MARKER : String := "$"

/-- The global state `main` of `6a.py` sets up: the grammar dict and the
`terminals` / `non_terminals` sets. -/
structure Ctx where
  grammar : Grammar
  terminals : SSet
  nonterminals : SSet

/-- `'A' <= symbol[0] <= 'Z'` (symbols read from the grammar file are never
empty; an empty string counts as not uppercase). -/
def firstCharUpper (s : String) : Bool :=
  match s.data with
  | [] => false
  | c :: _ => decide ('A' ≤ c) && decide (c ≤ 'Z')

/-- The terminal set built while reading the grammar file:
`if symbol != EPSILON and not ('A' <= symbol[0] <= 'Z'): terminals.add(symbol)`
over every right-hand-side symbol. -/
def loadTerminals (g : Grammar) : SSet :=
  (rhsSymbols g).foldl
    (fun t sym => if sym ≠ EPSILON ∧ firstCharUpper sym = false then linsert t sym else t) []

/-- The post-pass of `main` that adds capitalized right-hand-side symbols not
yet classified: state is (`non_terminals`, `all_symbols`). -/
def loadNonterminalsAux : SSet → SSet → List String → SSet
  | nts, _, [] => nts
  | nts, allS, sym :: rest =>
    if firstCharUpper sym = true ∧ sym ∉ allS then
      loadNonterminalsAux (linsert nts sym) (linsert allS sym) rest
    else loadNonterminalsAux nts allS rest

/-- The nonterminal set `main` ends up with: every head, plus every
capitalized right-hand-side symbol that is in none of
`terminals | non_terminals | {EPSILON}`. -/
def loadNonterminals (g : Grammar) : SSet :=
  loadNonterminalsAux (lunion [] (keyList g))
    (lunion (lunion (loadTerminals g) (keyList g)) [EPSILON]) (rhsSymbols g)

/-- The context `main` of `6a.py` builds from the structured grammar. -/
def pipelineCtx (g : Grammar) : Ctx :=
  ⟨g, loadTerminals g, loadNonterminals g⟩

/-- The `for sym in production` walk of `compute_first`, given the recursive
call `rec` (which threads the memo): merge `FIRST(sym) \ {ε}` and stop at
the first symbol whose FIRST lacks ε; the boolean result records whether the
walk consumed the whole production (Python's `for … else`). -/
def cfWalk (rec : Memo → String → Option (SSet × Memo)) :
    Memo → List String → Option (SSet × Bool × Memo)
  | memo, [] => some ([], true, memo)
  | memo, sym :: rest =>
    (rec memo sym).bind fun p =>
      if EPSILON ∈ p.1 then
        (cfWalk rec p.2 rest).map fun q =>
          (lunion (lerase p.1 EPSILON) q.1, q.2.1, q.2.2)
      else some (lerase p.1 EPSILON, false, p.2)

/-- The production loop of `compute_first`: `production == [EPSILON]` adds ε
directly; otherwise run the walk and add ε if it consumed the production. -/
def cfProds (rec : Memo → String → Option (SSet × Memo)) :
    Memo → SSet → List (List String) → Option (SSet × Memo)
  | memo, acc, [] => some (acc, memo)
  | memo, acc, p :: ps =>
    if p = [EPSILON] then cfProds rec memo (linsert acc EPSILON) ps
    else (cfWalk rec memo p).bind fun q =>
      cfProds rec q.2.2
        (if q.2.1 then linsert (lunion acc q.1) EPSILON else lunion acc q.1) ps

/-- `compute_first` of `6a.py`, with explicit fuel for the unbounded Python
recursion (`none` = the call recurses past any depth, i.e. the Python
function never returns).  Branches in source order: memo hit, terminal,
epsilon, grammar key, unknown symbol; every non-hit branch memoizes its
result before returning. -/
def compute_first (ctx : Ctx) : Nat → Memo → String → Option (SSet × Memo)
  | 0, _, _ => none
  | fuel + 1, memo, symbol =>
    match memoLookup memo symbol with
    | some f => some (f, memo)
    | none =>
      if symbol ∈ ctx.terminals then some ([symbol], memoInsert memo symbol [symbol])
      else if symbol = EPSILON then some ([EPSILON], memoInsert memo symbol [EPSILON])
      else if isKey ctx.grammar symbol then
        (cfProds (compute_first ctx fuel) memo [] (prodsOf ctx.grammar symbol)).map
          fun q => (q.1, memoInsert q.2 symbol q.1)
      else some ([], memoInsert memo symbol [])

/-- `compute_first_of_sequence` of `6a.py`: `{ε}` for the empty sequence,
else merge `FIRST(sym) \ {ε}` left to right, stopping at the first symbol
whose FIRST lacks ε; if none stops the walk, add ε. -/
def compute_first_of_sequence (ctx : Ctx) (fuel : Nat) :
    Memo → List String → Option (SSet × Memo)
  | memo, [] => some ([EPSILON], memo)
  | memo, sym :: rest =>
    (compute_first ctx fuel memo sym).bind fun p =>
      if EPSILON ∈ p.1 then
        (compute_first_of_sequence ctx fuel p.2 rest).map fun q =>
          (lunion (lerase p.1 EPSILON) q.1, q.2)
      else some (lerase p.1 EPSILON, p.2)

/-- The `for nt in non_terminals: compute_first(nt)` loop of `main` (the
iteration order of the Python set is unspecified; the caller passes one). -/
def computeAllFirst (ctx : Ctx) (fuel : Nat) : List String → Memo → Option Memo
  | [], memo => some memo
  | nt :: rest, memo =>
    (compute_first ctx fuel memo nt).bind fun p => computeAllFirst ctx fuel rest p.2

/-- `follow_sets[B].update(first_beta - {EPSILON})` of
`compute_all_follow_sets`. -/
def f6Add (t : PSet) (B : String) (fb : SSet) : PSet :=
  lunion t ((lerase fb EPSILON).map fun x => (B, x))

/-- One `enumerate(prod)` position of `compute_all_follow_sets`: skip
non-nonterminals; otherwise add `FIRST(beta) \ {ε}` to `FOLLOW(B)` and, when
beta is empty or derives ε, also add the current `FOLLOW(A)`. -/
def f6Step (ctx : Ctx) (fuel : Nat) (A : String) (memo : Memo) (t : PSet)
    (B : String) (beta : List String) : Option (PSet × Memo) :=
  if B ∈ ctx.nonterminals then
    (compute_first_of_sequence ctx fuel memo beta).map fun p =>
      (if beta = [] ∨ EPSILON ∈ p.1 then
        lunion (f6Add t B p.1) ((fsOf (f6Add t B p.1) A).map fun x => (B, x))
      else f6Add t B p.1, p.2)
  else some (t, memo)

/-- The occurrence walk of `compute_all_follow_sets` over one production. -/
def f6ProdWalk (ctx : Ctx) (fuel : Nat) (A : String) :
    Memo → PSet → List String → Option (PSet × Memo)
  | memo, t, [] => some (t, memo)
  | memo, t, B :: beta =>
    (f6Step ctx fuel A memo t B beta).bind fun p => f6ProdWalk ctx fuel A p.2 p.1 beta

/-- One full pass of the `while updated` loop of `compute_all_follow_sets`. -/
def f6Pass (ctx : Ctx) (fuel : Nat) :
    Memo → PSet → List (String × List String) → Option (PSet × Memo)
  | memo, t, [] => some (t, memo)
  | memo, t, e :: rest =>
    (f6ProdWalk ctx fuel e.1 memo t e.2).bind fun p => f6Pass ctx fuel p.2 p.1 rest

/-- The `while updated` loop with explicit pass fuel: stop as soon as a pass
adds no pair (`updated == False`). -/
def f6Loop (ctx : Ctx) (fuel : Nat) : Nat → Memo → PSet → Option (PSet × Memo)
  | 0, memo, t => some (t, memo)
  | n + 1, memo, t =>
    (f6Pass ctx fuel memo t (prodList ctx.grammar)).bind fun p =>
      if p.1 = t then some (t, p.2) else f6Loop ctx fuel n p.2 p.1

/-- `compute_all_follow_sets` of `6a.py`: initialize every `FOLLOW` set
empty, seed `FOLLOW(start) = {END_MARKER}`, and iterate passes until no set
grows (the concrete instantiations below converge well within the allotted
passes; the fuel only truncates a run that has not yet converged). -/
def compute_all_follow_sets (ctx : Ctx) (fuel passes : Nat) (memo : Memo)
    (start : String) : Option (PSet × Memo) :=
  f6Loop ctx fuel passes memo [(start, END_MARKER)]

/-- One conflict: nonterminal, lookahead, existing production, new one. -/
abbrev Conflict := String × String × List String × List String

/-- The filled cells of the parsing table; a missing cell is Python's `None`. -/
abbrev PTable := List ((String × String) × List String)

def tblGet (tbl : PTable) (nt a : String) : Option (List String) :=
  (tbl.find? (fun e => e.1.1 == nt && e.1.2 == a)).map (fun e => e.2)

/-- One cell-insertion attempt `(nt, lookahead, production)`. -/
abbrev Attempt := String × String × List String

/-- `if parsing_table[nt][terminal] is not None: report conflict, return
False; else: parsing_table[nt][terminal] = prod`. -/
def applyAttempt (tbl : PTable) (a : Attempt) : Except Conflict PTable :=
  match tblGet tbl a.1 a.2.1 with
  | some p => Except.error (a.1, a.2.1, p, a.2.2)
  | none => Except.ok (((a.1, a.2.1), a.2.2) :: tbl)

/-- The insert attempts one production generates in `construct_parsing_table`:
one per terminal of `FIRST(prod) \ {ε}` (in set order), then, when
ε ∈ FIRST(prod), one per terminal of `FOLLOW(nt)` (in set order). -/
def prodAttempts (ctx : Ctx) (fuel : Nat) (follow : PSet) (memo : Memo)
    (nt : String) (prod : List String) : Option (List Attempt × Memo) :=
  (compute_first_of_sequence ctx fuel memo prod).map fun p =>
    ((lerase p.1 EPSILON).map (fun t => (nt, t, prod)) ++
      (if EPSILON ∈ p.1 then (fsOf follow nt).map (fun t => (nt, t, prod)) else []),
     p.2)

/-- All insert attempts of `construct_parsing_table`, in loop order. -/
def constructAttempts (ctx : Ctx) (fuel : Nat) (follow : PSet) :
    Memo → List (String × List String) → Option (List Attempt × Memo)
  | memo, [] => some ([], memo)
  | memo, e :: rest =>
    (prodAttempts ctx fuel follow memo e.1 e.2).bind fun p =>
      (constructAttempts ctx fuel follow p.2 rest).map fun q => (p.1 ++ q.1, q.2)

/-- `construct_parsing_table` of `6a.py`: nested loops over productions and
lookaheads with an early `return False` at the first already-filled cell.
The sequence of cell-insertion attempts does not depend on the table being
built, so the nested loops flatten to one early-exit fold over that
sequence; `Except.error` carries the conflict the function prints before
returning `False`. -/
def construct_parsing_table (ctx : Ctx) (fuel : Nat) (memo : Memo)
    (follow : PSet) : Option (Except Conflict PTable) :=
  (constructAttempts ctx fuel follow memo (prodList ctx.grammar)).map fun p =>
    p.1.foldlM applyAttempt []

/-- Modelled from the spec: the builder policy "report all conflicts found,
then fail" (absent from `6a.py`, which stops at the first conflict) — the
same cell-insertion attempts, but a conflicting attempt is recorded (the
existing cell content is kept) and the scan continues, returning the table
and the complete conflict list. -/
def collectAttempt (s : PTable × List Conflict) (a : Attempt) :
    PTable × List Conflict :=
  match tblGet s.1 a.1 a.2.1 with
  | some p => (s.1, s.2 ++ [(a.1, a.2.1, p, a.2.2)])
  | none => (((a.1, a.2.1), a.2.2) :: s.1, s.2)

/-- Modelled from the spec: run every insertion attempt, collecting every
conflict instead of failing at the first. -/
def buildTableAllConflicts (ctx : Ctx) (fuel : Nat) (memo : Memo)
    (follow : PSet) : Option (PTable × List Conflict) :=
  (constructAttempts ctx fuel follow memo (prodList ctx.grammar)).map fun p =>
    p.1.foldl collectAttempt ([], [])

/-- A parser configuration: the stack (top first; Python keeps the top at
the end of its list) and the input cursor. -/
structure Config where
  stack : List String
  ptr : Nat
deriving DecidableEq

/-- The three error shapes `parse_input_string` prints before returning
`False`. -/
inductive Reason where
  | mismatch (x a : String)
  | noEntry (x a : String)
  | unknown (x : String)
deriving DecidableEq

/-- What `parse_input_string` reads while stepping: the classification sets,
the finished parsing table and the token list (input tokens plus the
trailing end marker). -/
structure PCtx where
  terminals : SSet
  nonterminals : SSet
  table : String → String → Option (List String)
  tokens : List String

/-- One loop iteration's outcome. -/
inductive StepRes where
  | next (c : Config)
  | accepted
  | emptyStack
  | rejectedAt (r : Reason) (c : Config)
deriving DecidableEq

/-- One iteration of the `while stack` loop of `parse_input_string`, in
source order: terminal-or-end-marker top (match/pop or mismatch), then
nonterminal top (table lookup: apply or no-entry error), then unknown
symbol; after a non-returning action, accept when the popped top and the
current token were both the end marker.  (`tokens[input_pointer]` is read
with a default that no grammar symbol equals; the Python index stays in
range in every reachable configuration.) -/
def pstep (ctx : PCtx) (c : Config) : StepRes :=
  match c.stack with
  | [] => StepRes.emptyStack
  | top :: rest =>
    let a := ctx.tokens.getD c.ptr ""
    if top ∈ ctx.terminals ∨ top = END_MARKER then
      if top = a then
        if top = END_MARKER ∧ a = END_MARKER then StepRes.accepted
        else StepRes.next ⟨rest, c.ptr + 1⟩
      else StepRes.rejectedAt (Reason.mismatch top a) c
    else if top ∈ ctx.nonterminals then
      match ctx.table top a with
      | none => StepRes.rejectedAt (Reason.noEntry top a) c
      | some production =>
        StepRes.next ⟨(if production = [EPSILON] then [] else production) ++ rest, c.ptr⟩
    else StepRes.rejectedAt (Reason.unknown top) c

/-- How a run ends: `finished true` is the accepting `return True`,
`finished false` the `return False` after the `while` loop; a rejection
carries the error and the configuration it occurred in; `running` means the
fuel ran out with the loop still going. -/
inductive RunRes where
  | finished (ok : Bool)
  | rejected (r : Reason) (c : Config)
  | running (c : Config)
deriving DecidableEq

/-- The `while stack` loop of `parse_input_string` with explicit fuel. -/
def parse_run (ctx : PCtx) : Nat → Config → RunRes
  | 0, c => RunRes.running c
  | n + 1, c =>
    match pstep ctx c with
    | StepRes.next c' => parse_run ctx n c'
    | StepRes.accepted => RunRes.finished true
    | StepRes.emptyStack => RunRes.finished false
    | StepRes.rejectedAt r cfg => RunRes.rejected r cfg

/-- `parse_input_string` of `6a.py`: stack initialized to
`[END_MARKER, start]` (end marker at the bottom; top-first here), cursor 0. -/
def parse_input_string (ctx : PCtx) (fuel : Nat) (start : String) : RunRes :=
  parse_run ctx fuel ⟨[start, END_MARKER], 0⟩

/-- `True` once the loop has returned (accept or any reject); `False` while
it is still running. -/
def settled : RunRes → Bool
  | RunRes.running _ => false
  | _ => true

/-- The run never leaves the loop, no matter the fuel: the embedded form of
an infinite `while` loop. -/
def runsForever (ctx : PCtx) (c : Config) : Prop :=
  ∀ n : Nat, settled (parse_run ctx n c) = false

end E6

/-! ## `expt 5/main.py`: immediate-left-recursion elimination -/

namespace E5

def EPSILON : String := "ε"

/-- The fresh-name suffix: `new_nt = nt + "'"`. -/
def prime : String := "'"

/-- Python dict assignment `new_grammar[k] = v` on the association list:
replace the entry when the key exists, else append it. -/
def setEntry (g : Grammar) (k : String) (v : List (List String)) : Grammar :=
  if k ∈ keyList g then g.map (fun e => if e.1 = k then (k, v) else e) else g ++ [(k, v)]

/-- `alpha = [p[1:] for p in grammar[nt] if p and p[0] == nt]`. -/
def alphaOf (nt : String) (ps : List (List String)) : List (List String) :=
  ps.filterMap fun p =>
    match p with
    | [] => none
    | x :: xs => if x = nt then some xs else none

/-- `beta = [p for p in grammar[nt] if p and p[0] != nt]`. -/
def betaOf (nt : String) (ps : List (List String)) : List (List String) :=
  ps.filter fun p =>
    match p with
    | [] => false
    | x :: _ => decide (x ≠ nt)

/-- One original key of `eliminate_left_recursion`: when `alpha` is nonempty,
write `nt -> beta·nt'` (or `nt -> nt'` when `beta` is empty) and
`nt' -> alpha·nt' | ε`; else copy the productions. -/
def elimStep (acc : Grammar) (e : String × List (List String)) : Grammar :=
  if alphaOf e.1 e.2 ≠ [] then
    setEntry
      (setEntry acc e.1
        (if betaOf e.1 e.2 = [] then [[e.1 ++ prime]]
        else (betaOf e.1 e.2).map (fun p => p ++ [e.1 ++ prime])))
      (e.1 ++ prime) ((alphaOf e.1 e.2).map (fun p => p ++ [e.1 ++ prime]) ++ [[EPSILON]])
  else setEntry acc e.1 e.2

/-- `eliminate_left_recursion` of `expt 5/main.py`: iterate over the original
keys, building the new grammar. -/
def eliminate_left_recursion (g : Grammar) : Grammar :=
  g.foldl elimStep []

/-- Whether some production of the grammar starts with its own head. -/
def hasImmediateLR (g : Grammar) : Bool :=
  g.any fun e => e.2.any fun p => p.head? == some e.1

/-- A row none of whose productions starts with its own key. -/
def GoodRow (e : String × List (List String)) : Prop :=
  ∀ p ∈ e.2, p.head? ≠ some e.1

theorem mem_setEntry {g : Grammar} {k : String} {v : List (List String)}
    {e' : String × List (List String)} (h : e' ∈ setEntry g k v) :
    e' ∈ g ∨ e' = (k, v) := by
  unfold setEntry at h
  split at h
  · rcases List.mem_map.mp h with ⟨e, he, rfl⟩
    split
    · exact Or.inr rfl
    · exact Or.inl he
  · rcases List.mem_append.mp h with h | h
    · exact Or.inl h
    · exact Or.inr (List.mem_singleton.mp h)

theorem prime_ne_self (nt : String) : nt ++ prime ≠ nt := by
  intro h
  have h1 := congrArg String.length h
  rw [String.length_append] at h1
  have h2 : prime.length = 1 := rfl
  omega

theorem epsilon_ne_prime (nt : String) : EPSILON ≠ nt ++ prime := by
  intro h
  have hd := congrArg String.data h
  rw [String.data_append] at hd
  cases hnt : nt.data with
  | nil =>
    rw [hnt] at hd
    simp [EPSILON, prime] at hd
  | cons c cs =>
    rw [hnt] at hd
    have := congrArg List.length hd
    simp [EPSILON, prime] at this

theorem elimStep_good {acc : Grammar} {e : String × List (List String)}
    (hH : ∀ p ∈ e.2, p.head? = some e.1 →
      p.tail ≠ [] ∧ p.tail.head? ≠ some (e.1 ++ prime))
    (hacc : ∀ e' ∈ acc, GoodRow e') :
    ∀ e' ∈ elimStep acc e, GoodRow e' := by
  intro e' he'
  unfold elimStep at he'
  split at he'
  · rcases mem_setEntry he' with h | rfl
    · rcases mem_setEntry h with h | rfl
      · exact hacc e' h
      · -- the rewritten `nt` row: beta productions (plus `nt'`) or `[nt']`
        intro p hp
        simp only at hp ⊢
        split at hp
        · rcases List.mem_singleton.mp hp with rfl
          simp only [List.head?]
          intro hcon
          exact prime_ne_self e.1 (Option.some.inj hcon)
        · rcases List.mem_map.mp hp with ⟨q, hq, rfl⟩
          have hqmem := List.mem_filter.mp hq
          rcases hq2 : q with _ | ⟨x, xs⟩
          · rw [hq2] at hqmem
            simp [betaOf] at hqmem
          · rw [hq2] at hqmem
            have hx : x ≠ e.1 := by
              have := hqmem.2
              simpa using this
            simp only [List.cons_append, List.head?]
            intro hcon
            exact hx (Option.some.inj hcon)
    · -- the fresh `nt'` row: alpha productions (plus `nt'`) and `[ε]`
      intro p hp
      simp only at hp ⊢
      rcases List.mem_append.mp hp with h | h
      · rcases List.mem_map.mp h with ⟨q, hq, rfl⟩
        rcases List.mem_filterMap.mp hq with ⟨p0, hp0, hmatch⟩
        rcases hp0s : p0 with _ | ⟨x, xs⟩
        · rw [hp0s] at hmatch
          simp at hmatch
        · rw [hp0s] at hmatch
          simp only at hmatch
          split at hmatch
          · next hxeq =>
            rcases Option.some.inj hmatch with rfl
            have hh := hH p0 hp0 (by rw [hp0s, hxeq]; rfl)
            rw [hp0s] at hh
            simp only [List.tail_cons] at hh
            rcases hqs : xs with _ | ⟨y, ys⟩
            · exact absurd hqs hh.1
            · rw [hqs] at hh
              have hy : y ≠ e.1 ++ prime := by
                intro hcon
                exact hh.2 (by rw [hcon]; rfl)
              simp only [List.cons_append, List.head?]
              intro hcon
              exact hy (Option.some.inj hcon)
          · exact absurd hmatch (by simp)
      · rcases List.mem_singleton.mp h with rfl
        simp only [List.head?]
        intro hcon
        exact epsilon_ne_prime e.1 (Option.some.inj hcon)
  · next halpha =>
    rcases mem_setEntry he' with h | rfl
    · exact hacc e' h
    · intro p hp hcon
      have hnil : alphaOf e.1 e.2 = [] := by
        by_contra hne
        exact halpha hne
      have := List.filterMap_eq_nil_iff.mp hnil p hp
      rcases hps : p with _ | ⟨x, xs⟩
      · rw [hps] at hcon
        simp at hcon
      · rw [hps] at hcon
        have hx : x = e.1 := by
          simpa [List.head?] using hcon
        rw [hps, hx] at this
        simp at this

theorem eliminate_left_recursion_good {g : Grammar}
    (H : ∀ e ∈ g, ∀ p ∈ e.2, p.head? = some e.1 →
      p.tail ≠ [] ∧ p.tail.head? ≠ some (e.1 ++ prime)) :
    ∀ e' ∈ eliminate_left_recursion g, GoodRow e' := by
  unfold eliminate_left_recursion
  exact foldl_pres (fun acc => ∀ e' ∈ acc, GoodRow e') elimStep g
    (fun e he acc hacc => elimStep_good (H e he) hacc) [] (by simp)

end E5

/-! ## Further membership facts -/

theorem mem_linsert {α : Type} [DecidableEq α] {s : List α} {x y : α} :
    y ∈ linsert s x ↔ y ∈ s ∨ y = x := by
  unfold linsert
  split
  · next hx =>
    constructor
    · exact Or.inl
    · rintro (h | rfl)
      · exact h
      · exact hx
  · simp [List.mem_append]

theorem mem_lunion_right {α : Type} [DecidableEq α] {t : List α} {y : α} :
    y ∈ t → ∀ s : List α, y ∈ lunion s t := by
  induction t with
  | nil => intro h; simp at h
  | cons a t ih =>
    intro h s
    show y ∈ lunion (linsert s a) t
    rcases List.mem_cons.mp h with rfl | h'
    · exact (lunion_grows (linsert s y) t).subset (mem_linsert.mpr (Or.inr rfl))
    · exact ih h' (linsert s a)

theorem mem_lunion {α : Type} [DecidableEq α] {s t : List α} {y : α} :
    y ∈ lunion s t ↔ y ∈ s ∨ y ∈ t := by
  constructor
  · exact mem_of_mem_lunion
  · rintro (h | h)
    · exact (lunion_grows s t).subset h
    · exact mem_lunion_right h s

/-! ## The table builder stops at the first conflict: fold relation -/

namespace E6

theorem collect_conflicts_append :
    ∀ (l : List Attempt) (tbl : PTable) (cs : List Conflict),
      (l.foldl collectAttempt (tbl, cs)).2 = cs ++ (l.foldl collectAttempt (tbl, [])).2 := by
  intro l
  induction l with
  | nil => intro tbl cs; simp
  | cons a l ih =>
    intro tbl cs
    simp only [List.foldl_cons]
    cases h : tblGet tbl a.1 a.2.1 with
    | some p =>
      simp only [collectAttempt, h]
      rw [ih tbl (cs ++ [(a.1, a.2.1, p, a.2.2)]), ih tbl ([] ++ [(a.1, a.2.1, p, a.2.2)])]
      simp
    | none =>
      simp only [collectAttempt, h]
      exact ih _ cs

theorem foldlM_error_head :
    ∀ (l : List Attempt) (tbl : PTable) (c : Conflict),
      l.foldlM applyAttempt tbl = Except.error c →
      (l.foldl collectAttempt (tbl, [])).2.head? = some c := by
  intro l
  induction l with
  | nil =>
    intro tbl c h
    rw [List.foldlM_nil] at h
    exact Except.noConfusion h
  | cons a l ih =>
    intro tbl c h
    rw [List.foldlM_cons] at h
    cases hg : tblGet tbl a.1 a.2.1 with
    | some p =>
      rw [show applyAttempt tbl a = Except.error (a.1, a.2.1, p, a.2.2) by
        simp [applyAttempt, hg]] at h
      have hc : c = (a.1, a.2.1, p, a.2.2) := by
        cases h
        rfl
      simp only [List.foldl_cons, collectAttempt, hg]
      rw [collect_conflicts_append l tbl ([] ++ [(a.1, a.2.1, p, a.2.2)])]
      simp [hc]
    | none =>
      rw [show applyAttempt tbl a = Except.ok (((a.1, a.2.1), a.2.2) :: tbl) by
        simp [applyAttempt, hg]] at h
      simp only [List.foldl_cons, collectAttempt, hg]
      exact ih _ c h

theorem foldlM_ok_conflicts :
    ∀ (l : List Attempt) (tbl t : PTable),
      l.foldlM applyAttempt tbl = Except.ok t →
      l.foldl collectAttempt (tbl, []) = (t, []) := by
  intro l
  induction l with
  | nil =>
    intro tbl t h
    rw [List.foldlM_nil] at h
    cases h
    rfl
  | cons a l ih =>
    intro tbl t h
    rw [List.foldlM_cons] at h
    cases hg : tblGet tbl a.1 a.2.1 with
    | some p =>
      rw [show applyAttempt tbl a = Except.error (a.1, a.2.1, p, a.2.2) by
        simp [applyAttempt, hg]] at h
      exact Except.noConfusion h
    | none =>
      rw [show applyAttempt tbl a = Except.ok (((a.1, a.2.1), a.2.2) :: tbl) by
        simp [applyAttempt, hg]] at h
      simp only [List.foldl_cons, collectAttempt, hg]
      exact ih _ t h

/-! ## The FOLLOW solver of `6a.py` only grows its pair set -/

theorem f6Step_grows {ctx : Ctx} {fuel : Nat} {A : String} {memo : Memo} {t : PSet}
    {B : String} {beta : List String} {p : PSet × Memo}
    (h : f6Step ctx fuel A memo t B beta = some p) : t <+: p.1 := by
  unfold f6Step at h
  split at h
  · cases hc : compute_first_of_sequence ctx fuel memo beta with
    | none => rw [hc] at h; simp at h
    | some q =>
      rw [hc] at h
      simp only [Option.map_some'] at h
      have hp := (Option.some.inj h).symm
      rw [hp]
      simp only
      split
      · exact ((lunion_grows t _).trans (lunion_grows _ _))
      · exact lunion_grows t _
  · have hp := (Option.some.inj h).symm
    rw [hp]

theorem f6ProdWalk_grows {ctx : Ctx} {fuel : Nat} {A : String} :
    ∀ (l : List String) (memo : Memo) (t : PSet) (p : PSet × Memo),
      f6ProdWalk ctx fuel A memo t l = some p → t <+: p.1 := by
  intro l
  induction l with
  | nil =>
    intro memo t p h
    have hp := (Option.some.inj h).symm
    rw [hp]
  | cons B beta ih =>
    intro memo t p h
    rw [f6ProdWalk] at h
    cases hs : f6Step ctx fuel A memo t B beta with
    | none => rw [hs] at h; simp at h
    | some q =>
      rw [hs] at h
      simp only [Option.some_bind] at h
      exact (f6Step_grows hs).trans (ih q.2 q.1 p h)

theorem f6Pass_grows {ctx : Ctx} {fuel : Nat} :
    ∀ (l : List (String × List String)) (memo : Memo) (t : PSet) (p : PSet × Memo),
      f6Pass ctx fuel memo t l = some p → t <+: p.1 := by
  intro l
  induction l with
  | nil =>
    intro memo t p h
    have hp := (Option.some.inj h).symm
    rw [hp]
  | cons e rest ih =>
    intro memo t p h
    rw [f6Pass] at h
    cases hs : f6ProdWalk ctx fuel e.1 memo t e.2 with
    | none => rw [hs] at h; simp at h
    | some q =>
      rw [hs] at h
      simp only [Option.some_bind] at h
      exact (f6ProdWalk_grows e.2 memo t q hs).trans (ih q.2 q.1 p h)

theorem f6Loop_mem {ctx : Ctx} {fuel : Nat} :
    ∀ (n : Nat) (memo : Memo) (t : PSet) (p : PSet × Memo),
      f6Loop ctx fuel n memo t = some p → ∀ q ∈ t, q ∈ p.1 := by
  intro n
  induction n with
  | zero =>
    intro memo t p h q hq
    have hp := (Option.some.inj h).symm
    rw [hp]
    exact hq
  | succ n ih =>
    intro memo t p h q hq
    rw [f6Loop] at h
    cases hs : f6Pass ctx fuel memo t (prodList ctx.grammar) with
    | none => rw [hs] at h; simp at h
    | some r =>
      rw [hs] at h
      simp only [Option.some_bind] at h
      split at h
      · have hp := (Option.some.inj h).symm
        rw [hp]
        exact hq
      · exact ih r.2 r.1 p h q ((f6Pass_grows _ memo t r hs).subset hq)

/-! ## Characterizing the loader's symbol classification (`main` of `6a.py`) -/

theorem mem_cond_foldl {α : Type} [DecidableEq α] (cond : α → Prop) [DecidablePred cond] :
    ∀ (l : List α) (t : List α) (y : α),
      y ∈ l.foldl (fun acc x => if cond x then linsert acc x else acc) t ↔
        y ∈ t ∨ (y ∈ l ∧ cond y) := by
  intro l
  induction l with
  | nil => intro t y; simp
  | cons a l ih =>
    intro t y
    simp only [List.foldl_cons]
    rw [ih]
    by_cases ha : cond a
    · rw [if_pos ha, mem_linsert]
      constructor
      · rintro ((h | rfl) | h)
        · exact Or.inl h
        · exact Or.inr ⟨List.mem_cons_self _ _, ha⟩
        · exact Or.inr ⟨List.mem_cons_of_mem _ h.1, h.2⟩
      · rintro (h | ⟨hm, hc⟩)
        · exact Or.inl (Or.inl h)
        · rcases List.mem_cons.mp hm with rfl | hm'
          · exact Or.inl (Or.inr rfl)
          · exact Or.inr ⟨hm', hc⟩
    · rw [if_neg ha]
      constructor
      · rintro (h | h)
        · exact Or.inl h
        · exact Or.inr ⟨List.mem_cons_of_mem _ h.1, h.2⟩
      · rintro (h | ⟨hm, hc⟩)
        · exact Or.inl h
        · rcases List.mem_cons.mp hm with rfl | hm'
          · exact absurd hc ha
          · exact Or.inr ⟨hm', hc⟩

theorem mem_loadTerminals {g : Grammar} {s : String} :
    s ∈ loadTerminals g ↔
      s ∈ rhsSymbols g ∧ s ≠ EPSILON ∧ firstCharUpper s = false := by
  unfold loadTerminals
  rw [mem_cond_foldl (fun sym => sym ≠ EPSILON ∧ firstCharUpper sym = false)
    (rhsSymbols g) [] s]
  simp [and_assoc]

theorem mem_loadNonterminalsAux :
    ∀ (l : List String) (nts allS : List String),
      (∀ x, firstCharUpper x = true → (x ∈ allS ↔ x ∈ nts)) →
      ∀ y, (y ∈ loadNonterminalsAux nts allS l ↔
        y ∈ nts ∨ (firstCharUpper y = true ∧ y ∈ l)) := by
  intro l
  induction l with
  | nil => intro nts allS _ y; simp [loadNonterminalsAux]
  | cons sym rest ih =>
    intro nts allS hinv y
    rw [loadNonterminalsAux]
    split
    · next hcond =>
      have hup : firstCharUpper sym = true := hcond.1
      have hinv' : ∀ x, firstCharUpper x = true →
          (x ∈ linsert allS sym ↔ x ∈ linsert nts sym) := by
        intro x hx
        rw [mem_linsert, mem_linsert, hinv x hx]
      rw [ih (linsert nts sym) (linsert allS sym) hinv' y, mem_linsert]
      constructor
      · rintro ((h | rfl) | ⟨h1, h2⟩)
        · exact Or.inl h
        · exact Or.inr ⟨hup, List.mem_cons_self _ _⟩
        · exact Or.inr ⟨h1, List.mem_cons_of_mem _ h2⟩
      · rintro (h | ⟨h1, h2⟩)
        · exact Or.inl (Or.inl h)
        · rcases List.mem_cons.mp h2 with rfl | h2'
          · exact Or.inl (Or.inr rfl)
          · exact Or.inr ⟨h1, h2'⟩
    · next hcond =>
      rw [ih nts allS hinv y]
      constructor
      · rintro (h | ⟨h1, h2⟩)
        · exact Or.inl h
        · exact Or.inr ⟨h1, List.mem_cons_of_mem _ h2⟩
      · rintro (h | ⟨h1, h2⟩)
        · exact Or.inl h
        · rcases List.mem_cons.mp h2 with rfl | h2'
          · by_cases hy : y ∈ allS
            · exact Or.inl ((hinv y h1).mp hy)
            · exact absurd ⟨h1, hy⟩ hcond
          · exact Or.inr ⟨h1, h2'⟩

theorem epsilon_not_upper : firstCharUpper EPSILON = false := by decide

theorem mem_loadNonterminals {g : Grammar} {s : String} :
    s ∈ loadNonterminals g ↔
      s ∈ keyList g ∨ (firstCharUpper s = true ∧ s ∈ rhsSymbols g) := by
  unfold loadNonterminals
  have hinv : ∀ x, firstCharUpper x = true →
      (x ∈ lunion (lunion (loadTerminals g) (keyList g)) [EPSILON] ↔
        x ∈ lunion [] (keyList g)) := by
    intro x hx
    rw [mem_lunion, mem_lunion, mem_lunion]
    constructor
    · rintro ((h | h) | h)
      · have hfalse := (mem_loadTerminals.mp h).2.2
        rw [hx] at hfalse
        cases hfalse
      · exact Or.inr h
      · rcases List.mem_singleton.mp h with rfl
        rw [epsilon_not_upper] at hx
        cases hx
    · rintro (h | h)
      · simp at h
      · exact Or.inl (Or.inr h)
  rw [mem_loadNonterminalsAux (rhsSymbols g) _ _ hinv s, mem_lunion]
  simp

end E6

/-! ## Concrete grammars and pipeline instantiations -/

/-- The left-recursive grammar `A -> A a | b` named by claim C3. -/
def gramL : Grammar := [("A", [["A", "a"], ["b"]])]

def ctxL : E6.Ctx := E6.pipelineCtx gramL

/-- `E6.compute_first` on a fresh memo never returns on this symbol, whatever
the recursion depth: the embedded form of Python's infinite recursion. -/
def computeFirstDiverges (ctx : E6.Ctx) (s : String) : Prop :=
  ∀ fuel : Nat, E6.compute_first ctx fuel [] s = none

/-- The mutually recursive grammar `A -> B | a ; B -> A | b` (claim C6). -/
def G6 : Grammar := [("A", [["B"], ["a"]]), ("B", [["A"], ["b"]])]

/-- The expression grammar of claims C7/C8:
`E -> T E' ; E' -> + T E' | ε ; T -> F T' ; T' -> * F T' | ε ; F -> ( E ) | id`
(epsilon written `#` as in the `6a.py` convention). -/
def G7 : Grammar :=
  [("E", [["T", "E'"]]),
   ("E'", [["+", "T", "E'"], ["#"]]),
   ("T", [["F", "T'"]]),
   ("T'", [["*", "F", "T'"], ["#"]]),
   ("F", [["(", "E", ")"], ["id"]])]

def ctx7 : E6.Ctx := E6.pipelineCtx G7

/-- The FIRST memo after `main`'s `for nt in non_terminals: compute_first(nt)`
loop on `G7` (the embedding fixes one order for the Python set iteration; on
this grammar the memoized results do not depend on it). -/
def memo7 : Memo := (E6.computeAllFirst ctx7 20 ctx7.nonterminals []).getD []

def follow7res : Option (PSet × Memo) := E6.compute_all_follow_sets ctx7 20 50 memo7 "E"

def follow7 : PSet := (follow7res.map (fun p => p.1)).getD []

def memo7b : Memo := (follow7res.map (fun p => p.2)).getD []

def table7res : Option (Except E6.Conflict E6.PTable) :=
  E6.construct_parsing_table ctx7 20 memo7b follow7

def table7 : E6.PTable :=
  match table7res with
  | some (Except.ok t) => t
  | _ => []

/-- The parser context for `G7` with input `id +` (tokens end with `$`). -/
def pctx7 : E6.PCtx := ⟨ctx7.terminals, ctx7.nonterminals, E6.tblGet table7, ["id", "+", "$"]⟩

/-- The doubly conflicting grammar `A -> a | a b ; B -> b | b c` (claim C1):
one LL(1) conflict in row `A`, another in row `B`. -/
def GC : Grammar := [("A", [["a"], ["a", "b"]]), ("B", [["b"], ["b", "c"]])]

def ctxC : E6.Ctx := E6.pipelineCtx GC

def memoC : Memo := (E6.computeAllFirst ctxC 10 ctxC.nonterminals []).getD []

def followCres : Option (PSet × Memo) := E6.compute_all_follow_sets ctxC 10 20 memoC "A"

def followC : PSet := (followCres.map (fun p => p.1)).getD []

def memoCb : Memo := (followCres.map (fun p => p.2)).getD []

/-- A parsing table whose `A` and `B` rows expand into each other at the end
marker: `M[A,$] = B`, `M[B,$] = A` (claim C2). -/
def loopTable (nt a : String) : Option (List String) :=
  if nt = "A" ∧ a = "$" then some ["B"]
  else if nt = "B" ∧ a = "$" then some ["A"]
  else none

/-- Parser context built on `loopTable` with empty input (only `$`). -/
def loopCtx : E6.PCtx := ⟨[], ["A", "B"], loopTable, ["$"]⟩

def cfgA : E6.Config := ⟨["A", "$"], 0⟩

def cfgB : E6.Config := ⟨["B", "$"], 0⟩

deriving instance DecidableEq for Except

/-- On the left-recursive grammar `A -> A a | b`, `compute_first` of `6a.py`
recurses on `A` before anything is memoized, so every recursion depth is
exhausted: the Python call never returns. -/
theorem compute_first_gramL_diverges : computeFirstDiverges ctxL "A" := by
  intro fuel
  induction fuel with
  | zero => rfl
  | succ n ih =>
    have h1 : E6.compute_first ctxL (n + 1) [] "A" =
        (E6.cfProds (E6.compute_first ctxL n) [] [] [["A", "a"], ["b"]]).map
          (fun q => (q.1, memoInsert q.2 "A" q.1)) := rfl
    have h2 : E6.cfWalk (E6.compute_first ctxL n) [] ["A", "a"] = none := by
      rw [E6.cfWalk, ih]
      rfl
    have h3 : E6.cfProds (E6.compute_first ctxL n) [] [] [["A", "a"], ["b"]] = none := by
      rw [E6.cfProds, if_neg (by decide), h2]
      rfl
    rw [h1, h3]
    rfl

end CDLab

/-! # The claims -/

open CDLab

/-- C1 counterexample: on the grammar `A -> a | a b ; B -> b | b c` there are
two LL(1) conflicts, one per row, yet `construct_parsing_table` fails with
only the first one (row `A` at lookahead `a`), while the collect-all policy
the spec describes finds both.  So the builder does not collect every
conflict and fail with the complete list. -/
theorem c1_counterexample :
    E6.construct_parsing_table ctxC 10 memoCb followC =
      some (Except.error ("A", "a", ["a"], ["a", "b"])) ∧
    (E6.buildTableAllConflicts ctxC 10 memoCb followC).map (fun q => q.2) =
      some [("A", "a", ["a"], ["a", "b"]), ("B", "b", ["b"], ["b", "c"])] :=
  ⟨by decide, by decide⟩

/-- C1 (amended): `construct_parsing_table` stops at the FIRST conflict
instead of accumulating: whenever it fails with conflict `c`, `c` is exactly
the head of the complete conflict list that the spec's "report all conflicts
found, then fail" policy would produce over the same insertion attempts; and
it succeeds exactly when that complete list is empty. -/
theorem c1_stops_at_first_conflict (ctx : E6.Ctx) (fuel : Nat) (memo : Memo)
    (follow : CDLab.PSet) :
    (∀ c : E6.Conflict,
      E6.construct_parsing_table ctx fuel memo follow = some (Except.error c) →
      (E6.buildTableAllConflicts ctx fuel memo follow).map (fun q => q.2.head?) =
        some (some c)) ∧
    (∀ t : E6.PTable,
      E6.construct_parsing_table ctx fuel memo follow = some (Except.ok t) →
      (E6.buildTableAllConflicts ctx fuel memo follow).map (fun q => q.2) = some []) := by
  constructor
  · intro c h
    unfold E6.construct_parsing_table at h
    unfold E6.buildTableAllConflicts
    cases ha : E6.constructAttempts ctx fuel follow memo (prodList ctx.grammar) with
    | none => rw [ha] at h; exact Option.noConfusion h
    | some p =>
      rw [ha] at h
      simp only [Option.map_some'] at h ⊢
      have herr : p.1.foldlM E6.applyAttempt [] = Except.error c := Option.some.inj h
      rw [E6.foldlM_error_head p.1 [] c herr]
  · intro t h
    unfold E6.construct_parsing_table at h
    unfold E6.buildTableAllConflicts
    cases ha : E6.constructAttempts ctx fuel follow memo (prodList ctx.grammar) with
    | none => rw [ha] at h; exact Option.noConfusion h
    | some p =>
      rw [ha] at h
      simp only [Option.map_some'] at h ⊢
      have hok : p.1.foldlM E6.applyAttempt [] = Except.ok t := Option.some.inj h
      rw [E6.foldlM_ok_conflicts p.1 [] t hok]

/-- C1 witness: the stop-at-first theorem applied to the doubly conflicting
grammar: the conflict the builder fails with heads the complete list. -/
theorem c1_stops_at_first_conflict_witness :
    (E6.buildTableAllConflicts ctxC 10 memoCb followC).map (fun q => q.2.head?) =
      some (some ("A", "a", ["a"], ["a", "b"])) :=
  (c1_stops_at_first_conflict ctxC 10 memoCb followC).1
    ("A", "a", ["a"], ["a", "b"]) (by decide)

/-- C2 counterexample: with the table `M[A,$] = B`, `M[B,$] = A` the parser
loop of `parse_input_string` steps from configuration `(stack [A,$], 0)` to
`(stack [B,$], 0)` and straight back: a two-cycle of apply actions that no
counter interrupts — the code has no apply-action bound and no
"derivation did not terminate" verdict at all. -/
theorem c2_counterexample :
    E6.pstep loopCtx cfgA = E6.StepRes.next cfgB ∧
    E6.pstep loopCtx cfgB = E6.StepRes.next cfgA :=
  ⟨by decide, by decide⟩

/-- C2 (amended): `parse_input_string` does not bound apply-actions and has
no distinct nontermination verdict; on a table whose cells send `A` to `B`
and `B` back to `A` at end-of-input, the loop runs forever — no fuel makes
it return. -/
theorem c2_parser_can_loop_forever : E6.runsForever loopCtx cfgA := by
  have key : ∀ n : Nat, E6.settled (E6.parse_run loopCtx n cfgA) = false ∧
      E6.settled (E6.parse_run loopCtx n cfgB) = false := by
    intro n
    induction n with
    | zero => exact ⟨rfl, rfl⟩
    | succ n ih =>
      constructor
      · show E6.settled (E6.parse_run loopCtx n cfgB) = false
        exact ih.2
      · show E6.settled (E6.parse_run loopCtx n cfgA) = false
        exact ih.1
  intro n
  exact (key n).1

/-- C3 counterexample: the recursive `compute_first` of `6a.py`, one of the
two FIRST computations the claim covers, diverges on the very grammar the
claim names, `A -> A a | b`: on a fresh memo the call on `A` recurses on `A`
again before anything is memoized, so no recursion depth suffices. -/
theorem c3_counterexample : computeFirstDiverges ctxL "A" :=
  compute_first_gramL_diverges

/-- C3 (amended): the iterative whole-grammar solver `compute_first_sets` of
`expt 4/main.py` is total and terminating on every grammar: its
`while changed` loop provably reaches its exit condition — the returned
state is a genuine fixed point of a full pass — within the documented
bound of passes; on the left-recursive `A -> A a | b` it terminates with
`FIRST(A) = {b}`.  (The recursive `compute_first` of `6a.py` instead
diverges there, see the counterexample.) -/
theorem c3_iterative_first_terminates :
    (∀ g : Grammar, E4.firstPass g (E4.compute_first_sets g) = E4.compute_first_sets g) ∧
    fsOf (E4.compute_first_sets gramL) "A" = ["b"] :=
  ⟨E4.compute_first_sets_fixed, by decide⟩

/-- C4 counterexample: in the grammar `S -> A` the symbol `A` never occurs
as a left-hand side, yet the `6a.py` loader classifies it as a nonterminal
(and not as a terminal) purely because its first letter is uppercase:
classification there IS lexical, not structural. -/
theorem c4_counterexample :
    "A" ∈ E6.loadNonterminals [("S", [["A"]])] ∧
    "A" ∉ keyList [("S", [["A"]])] ∧
    "A" ∉ E6.loadTerminals [("S", [["A"]])] :=
  ⟨by decide, by decide, by decide⟩

/-- C4 (amended): the two pipelines classify differently.  `is_nonterminal`
of `expt 4/main.py` is structural — true exactly when the symbol heads some
production.  The `expt 6/6a.py` loader is lexical: a right-hand-side symbol
lands in `terminals` exactly when it is not epsilon and its first character
is not an uppercase letter, and `non_terminals` is exactly the heads plus
the capitalized right-hand-side symbols. -/
theorem c4_classification_structural_vs_lexical :
    (∀ (g : Grammar) (s : String),
      E4.is_nonterminal s g = true ↔ ∃ e ∈ g, e.1 = s) ∧
    (∀ (g : Grammar) (s : String), s ∈ E6.loadTerminals g ↔
      s ∈ rhsSymbols g ∧ s ≠ E6.EPSILON ∧ E6.firstCharUpper s = false) ∧
    (∀ (g : Grammar) (s : String), s ∈ E6.loadNonterminals g ↔
      s ∈ keyList g ∨ (E6.firstCharUpper s = true ∧ s ∈ rhsSymbols g)) := by
  refine ⟨?_, fun g s => E6.mem_loadTerminals, fun g s => E6.mem_loadNonterminals⟩
  intro g s
  unfold E4.is_nonterminal isKey keyList
  simp [List.mem_map]

/-- C5: a parser step whose stack top `X` is a nonterminal (and not also a
terminal or the end marker, which the code dispatches first) with current
token `a`: an absent `table[X][a]` terminates the parse REJECTED with the
"no table entry" error naming `X` and `a`; a present production pops `X` and
pushes it reversed so its first symbol becomes the new top, with the cursor
unmoved — except that the single-symbol epsilon production pushes nothing. -/
theorem c5_nonterminal_step (ctx : E6.PCtx) (c : E6.Config) (X : String)
    (rest : List String) (n : Nat)
    (hs : c.stack = X :: rest) (hT : X ∉ ctx.terminals) (hE : X ≠ E6.END_MARKER)
    (hN : X ∈ ctx.nonterminals) :
    (ctx.table X (ctx.tokens.getD c.ptr "") = none →
      E6.parse_run ctx (n + 1) c =
        E6.RunRes.rejected (E6.Reason.noEntry X (ctx.tokens.getD c.ptr "")) c) ∧
    (∀ production, ctx.table X (ctx.tokens.getD c.ptr "") = some production →
      production ≠ [E6.EPSILON] →
      E6.pstep ctx c = E6.StepRes.next ⟨production ++ rest, c.ptr⟩) ∧
    (ctx.table X (ctx.tokens.getD c.ptr "") = some [E6.EPSILON] →
      E6.pstep ctx c = E6.StepRes.next ⟨rest, c.ptr⟩) := by
  obtain ⟨st, ptr⟩ := c
  simp only at hs
  subst hs
  have hcond : ¬(X ∈ ctx.terminals ∨ X = E6.END_MARKER) := by
    rintro (h | h)
    · exact hT h
    · exact hE h
  constructor
  · intro hnone
    have hps : E6.pstep ctx ⟨X :: rest, ptr⟩ =
        E6.StepRes.rejectedAt (E6.Reason.noEntry X (ctx.tokens.getD ptr "")) ⟨X :: rest, ptr⟩ := by
      simp only [E6.pstep, if_neg hcond, if_pos hN, hnone]
    simp [E6.parse_run, hps]
  constructor
  · intro production hsome hne
    simp only [E6.pstep, if_neg hcond, if_pos hN, hsome, if_neg hne]
  · intro hsome
    simp only [E6.pstep, if_neg hcond, if_pos hN, hsome]
    simp

/-- C5 witness: the theorem applied to the `G7` pipeline at the claim C7
rejection configuration — `T` on top, `$` as the current token and an empty
cell. -/
theorem c5_nonterminal_step_witness :
    E6.parse_run pctx7 1 ⟨["T", "E'", "$"], 2⟩ =
      E6.RunRes.rejected (E6.Reason.noEntry "T" "$") ⟨["T", "E'", "$"], 2⟩ :=
  (c5_nonterminal_step pctx7 ⟨["T", "E'", "$"], 2⟩ "T" ["E'", "$"] 0 rfl
    (by decide) (by decide) (by decide)).1 (by decide)

/-- C6: on the mutually recursive grammar `A -> B | a ; B -> A | b`, the
`main` loop of `first_n_follow.py` (shared memo) returns the under-populated
`FIRST(B) = {b}` — the in-progress guard returned ∅ for `A` while `B` was
being computed inside the toplevel call on `A`, and that poisoned set was
memoized as final — whereas the iterative fixed-point solver
`compute_first_sets` of `expt 4/main.py` returns `FIRST(B) = {a, b}`: the
recursive, visited-set-guarded computation is a strict under-approximation
here, so the two embeddings differ. -/
theorem c6_recursive_first_underpopulated :
    FF.cal_first_all G6 10 = some [("A", ["b", "a"]), ("B", ["b"])] ∧
    fsOf (E4.compute_first_sets G6) "B" = ["a", "b"] ∧
    (["b"] : List String) ⊆ ["a", "b"] ∧
    "a" ∈ fsOf (E4.compute_first_sets G6) "B" ∧
    "a" ∉ (["b"] : List String) :=
  ⟨by decide, by decide, by decide, by decide, by decide⟩

/-- C7: the expression grammar's pipeline builds a conflict-free table, and
parsing `id + $` terminates REJECTED with the "no table entry" error naming
`T` and `$`, in the configuration whose stack top is `T` (stack `[T, E', $]`)
with the cursor on the end marker. -/
theorem c7_reject_missing_operand :
    table7res = some (Except.ok table7) ∧
    E6.parse_input_string pctx7 30 "E" =
      E6.RunRes.rejected (E6.Reason.noEntry "T" "$") ⟨["T", "E'", "$"], 2⟩ :=
  ⟨by decide, by decide⟩

/-- C8: both FOLLOW solvers keep the end marker in `FOLLOW(start)`.  For the
`expt 4` solver the seeded pair `(start, $)` survives into every iterate and
into the returned fixed point, for any grammar with at least one production
(the start symbol being its first head, as `main` picks it); for the `6a.py`
solver, whenever `compute_all_follow_sets` returns, its result contains
`(start, $)`. -/
theorem c8_follow_start_has_end_marker (fs : CDLab.PSet) (e : String × List (List String))
    (rest : Grammar) (ctx : E6.Ctx) (fuel passes : Nat) (memo : Memo) (start : String) :
    (e.1, E4.ENDM) ∈ E4.compute_follow_sets (e :: rest) fs e.1 ∧
    (∀ n : Nat, (e.1, E4.ENDM) ∈ E4.followIter (e :: rest) fs n [(e.1, E4.ENDM)]) ∧
    (∀ r : CDLab.PSet × Memo, E6.compute_all_follow_sets ctx fuel passes memo start = some r →
      (start, E6.END_MARKER) ∈ r.1) := by
  refine ⟨?_, ?_, ?_⟩
  · exact E4.followIter_seed_mem _ _ (List.mem_singleton.mpr rfl)
  · intro n
    exact E4.followIter_seed_mem n _ (List.mem_singleton.mpr rfl)
  · intro r h
    exact E6.f6Loop_mem passes memo _ r h (start, E6.END_MARKER)
      (List.mem_singleton.mpr rfl)

/-- C8 witness: the theorem at the mutually recursive grammar `G6` (expt 4
solver) and at the `G7` pipeline's FOLLOW run (6a solver). -/
theorem c8_follow_start_has_end_marker_witness :
    ("A", E4.ENDM) ∈ E4.compute_follow_sets G6 [] "A" ∧
    ("E", E6.END_MARKER) ∈ follow7 :=
  ⟨(c8_follow_start_has_end_marker [] ("A", [["B"], ["a"]]) [("B", [["A"], ["b"]])]
      ctx7 20 50 memo7 "E").1,
   (c8_follow_start_has_end_marker [] ("A", [["B"], ["a"]]) [("B", [["A"], ["b"]])]
      ctx7 20 50 memo7 "E").2.2 (follow7, memo7b) (by decide)⟩

/-- C9: the FIRST base cases hold in both embeddings, on every (fresh) solver
run over the same grammar — the computations are pure, so reruns are equal
by construction, and the fuel is universally quantified.  For `6a.py`:
FIRST of a terminal is exactly `{t}` and FIRST of the epsilon symbol is
exactly `{ε}` (the loader never puts `#` among the terminals), and the FIRST
of the empty sequence is exactly `{ε}`.  For `expt 4/main.py`:
`first_of_sequence` of the empty sequence, of `[ε]` and of a terminal
singleton are `{ε}`, `{ε}` and `{t}`. -/
theorem c9_first_base_cases (ctx : E6.Ctx) (fuel : Nat) (memo : Memo) (t : String)
    (g : Grammar) (fs : CDLab.PSet) :
    (t ∈ ctx.terminals →
      (E6.compute_first ctx (fuel + 1) [] t).map (fun p => p.1) = some [t]) ∧
    (E6.EPSILON ∉ ctx.terminals →
      (E6.compute_first ctx (fuel + 1) [] E6.EPSILON).map (fun p => p.1) =
        some [E6.EPSILON]) ∧
    E6.compute_first_of_sequence ctx fuel memo [] = some ([E6.EPSILON], memo) ∧
    E4.first_of_sequence g fs [] = [E4.EPSILON] ∧
    E4.first_of_sequence g fs [E4.EPSILON] = [E4.EPSILON] ∧
    (E4.is_nonterminal t g = false → t ≠ E4.EPSILON →
      E4.first_of_sequence g fs [t] = [t]) := by
  refine ⟨?_, ?_, rfl, rfl, ?_, ?_⟩
  · intro ht
    simp [E6.compute_first, memoLookup, ht]
  · intro hne
    simp [E6.compute_first, memoLookup, hne]
  · unfold E4.first_of_sequence
    rw [if_neg (by simp)]
    simp [E4.seqWalk, linsert]
  · intro hnt hne
    unfold E4.first_of_sequence
    rw [if_neg (by simp)]
    simp [E4.seqWalk, hne, hnt, lerase, lunion, linsert, Ne.symm hne]

/-- C9 witness: base cases evaluated on the `G7` loader context and on a
plain terminal for the `expt 4` sequence form. -/
theorem c9_first_base_cases_witness :
    (E6.compute_first ctx7 1 [] "id").map (fun p => p.1) = some ["id"] ∧
    (E6.compute_first ctx7 1 [] E6.EPSILON).map (fun p => p.1) = some [E6.EPSILON] ∧
    E4.first_of_sequence G6 [] ["x"] = ["x"] :=
  ⟨(c9_first_base_cases ctx7 0 [] "id" G6 []).1 (by decide),
   (c9_first_base_cases ctx7 0 [] "id" G6 []).2.1 (by decide),
   (c9_first_base_cases ctx7 0 [] "x" G6 []).2.2.2.2.2 (by decide) (by decide)⟩

/-- C10 counterexample: on the input grammar `A -> A` (an immediately
left-recursive alternative with empty `α`), `eliminate_left_recursion`
returns `A -> A'` and `A' -> A' | ε` — the fresh row `A'` contains the
production `A'`, which has its own head as first symbol: the returned
grammar still has immediate left recursion. -/
theorem c10_counterexample :
    E5.eliminate_left_recursion [("A", [["A"]])] =
      [("A", [["A'"]]), ("A'", [["A'"], ["ε"]])] ∧
    E5.hasImmediateLR (E5.eliminate_left_recursion [("A", [["A"]])]) = true :=
  ⟨by decide, by decide⟩

/-- C10 (amended): the output of `eliminate_left_recursion` has no immediate
left recursion provided every immediately left-recursive alternative
`A -> A α` of the input has nonempty `α` that does not itself start with the
fresh symbol `A'`. -/
theorem c10_no_immediate_left_recursion (g : Grammar)
    (H : ∀ e ∈ g, ∀ p ∈ e.2, p.head? = some e.1 →
      p.tail ≠ [] ∧ p.tail.head? ≠ some (e.1 ++ E5.prime)) :
    E5.hasImmediateLR (E5.eliminate_left_recursion g) = false := by
  have hgood := E5.eliminate_left_recursion_good H
  unfold E5.hasImmediateLR
  simp only [List.any_eq_false, Bool.not_eq_true]
  intro e he p hp
  exact beq_eq_false_iff_ne.mpr (hgood e he p hp)

/-- C10 witness: the amended theorem on `A -> A a | b`. -/
theorem c10_no_immediate_left_recursion_witness :
    E5.hasImmediateLR (E5.eliminate_left_recursion [("A", [["A", "a"], ["b"]])]) = false :=
  c10_no_immediate_left_recursion [("A", [["A", "a"], ["b"]])] (by decide)
